import Mathlib

/-!
Verification of the Monte Carlo pi-estimation repository.

This file gives a shallow embedding of the repository's core pipeline:

- the numpy pseudorandom primitives the code calls
  (`np.random.default_rng`, i.e. SeedSequence entropy mixing feeding a
  PCG64 generator; `Generator.uniform`; `Generator.integers`), modelled
  exactly over `Nat` with explicit reductions modulo machine widths;
- the point sampler `generate_random_points`;
- the shapely point-in-polygon containment test `contains`
  (even-odd ray crossing on exact rational coordinates, boundary
  excluded, which is shapely's `contains` semantics for a point);
- the eager strategy `generate_estimates_for_loop` and the deferred
  polars strategy `generate_estimates_polars` (cast to Int8 flags,
  cumulative sum, arange, elementwise ratio, optional lazy return);
- the multi-run aggregation of `multiple_monte_carlo_example_polars`
  (concat, group by observation index, mean, sort);
- the hierarchical seeding of `random_seed_example`.

Real-number columns are modelled with `ℚ`; machine integers with `ℕ`
reduced modulo `2 ^ w` where overflow matters.
-/

namespace MonteCarlo

/-! ## numpy SeedSequence (bit_generator.pyx) -/

/-- Word size constant `2 ^ 32`. -/
def W32 : ℕ := 2 ^ 32

/-- Word size constant `2 ^ 64`. -/
def W64 : ℕ := 2 ^ 64

/-- Word size constant `2 ^ 128`. -/
def W128 : ℕ := 2 ^ 128

/-- SeedSequence hashing constant INIT_A. -/
def INIT_A : ℕ := 0x43b0d7e5

/-- SeedSequence hashing constant MULT_A. -/
def MULT_A : ℕ := 0x931e8875

/-- SeedSequence hashing constant INIT_B. -/
def INIT_B : ℕ := 0x8b51f9dd

/-- SeedSequence hashing constant MULT_B. -/
def MULT_B : ℕ := 0x58f38ded

/-- SeedSequence mixing constant MIX_MULT_L. -/
def MIX_MULT_L : ℕ := 0xca01f9dd

/-- SeedSequence mixing constant MIX_MULT_R. -/
def MIX_MULT_R : ℕ := 0x4973f715

/-- SeedSequence hash of one 32-bit value; threads the evolving hash
constant.  Returns the hashed value and the updated constant. -/
def ssHash (value hc : ℕ) : ℕ × ℕ :=
  let v1 := (value ^^^ hc) % W32
  let hc2 := (hc * MULT_A) % W32
  let v2 := (v1 * hc2) % W32
  ((v2 ^^^ (v2 >>> 16)) % W32, hc2)

/-- SeedSequence two-word mix: `(MIX_MULT_L * x - MIX_MULT_R * y)`
in 32-bit arithmetic, then a xorshift. -/
def ssMix (x y : ℕ) : ℕ :=
  let a := (x * MIX_MULT_L) % W32
  let b := (y * MIX_MULT_R) % W32
  let r := (a + (W32 - b)) % W32
  (r ^^^ (r >>> 16)) % W32

/-- Entropy pool size used by numpy SeedSequence. -/
def POOL_SIZE : ℕ := 4

/-- Decompose a nonnegative integer seed into little-endian 32-bit
words, as numpy coerces an `int` entropy value to a uint32 array
(`0` maps to the single word `[0]`).  Fuel-structured so that the
kernel can evaluate it. -/
def toWords32 : ℕ → ℕ → List ℕ
  | 0, _ => []
  | fuel + 1, n => if n < W32 then [n] else n % W32 :: toWords32 fuel (n / W32)

/-- The uint32 entropy array of an integer seed. -/
def entropyWords (seed : ℕ) : List ℕ := toWords32 (seed + 1) seed

/-- State threaded through the SeedSequence pool mixing: the four-word
pool and the evolving hash constant. -/
structure MixState where
  pool : List ℕ
  hc : ℕ
deriving Repr

/-- First SeedSequence loop: hash the entropy (padded with zeros) into
the pool. -/
def mixInit (entropy : List ℕ) : MixState :=
  (List.range POOL_SIZE).foldl
    (fun st i =>
      let (h, hc2) := ssHash (entropy.getD i 0) st.hc
      ⟨st.pool.set i h, hc2⟩)
    ⟨List.replicate POOL_SIZE 0, INIT_A⟩

/-- Second SeedSequence loop: mix every pool word into every other pool
word, skipping the diagonal. -/
def mixAcross (st : MixState) : MixState :=
  (List.range POOL_SIZE).foldl
    (fun st1 isrc =>
      (List.range POOL_SIZE).foldl
        (fun st2 idst =>
          if isrc = idst then st2
          else
            let (h, hc2) := ssHash (st2.pool.getD isrc 0) st2.hc
            ⟨st2.pool.set idst (ssMix (st2.pool.getD idst 0) h), hc2⟩)
        st1)
    st

/-- Third SeedSequence loop: mix any entropy words beyond the pool size
into every pool word. -/
def mixRemaining (entropy : List ℕ) (st : MixState) : MixState :=
  (entropy.drop POOL_SIZE).foldl
    (fun st1 e =>
      (List.range POOL_SIZE).foldl
        (fun st2 idst =>
          let (h, hc2) := ssHash e st2.hc
          ⟨st2.pool.set idst (ssMix (st2.pool.getD idst 0) h), hc2⟩)
        st1)
    st

/-- The mixed entropy pool of `SeedSequence(seed)`. -/
def seedPool (seed : ℕ) : List ℕ :=
  (mixRemaining (entropyWords seed) (mixAcross (mixInit (entropyWords seed)))).pool

/-- Model of `SeedSequence.generate_state(k, uint32)`: cycle over the pool,
hashing with the second constant pair. -/
def generateStateWords (pool : List ℕ) (k : ℕ) : List ℕ :=
  ((List.range k).foldl
    (fun (acc : List ℕ × ℕ) i =>
      let d0 := pool.getD (i % POOL_SIZE) 0
      let d1 := (d0 ^^^ acc.2) % W32
      let hc2 := (acc.2 * MULT_B) % W32
      let d2 := (d1 * hc2) % W32
      (acc.1 ++ [(d2 ^^^ (d2 >>> 16)) % W32], hc2))
    ([], INIT_B)).1

/-- Model of `SeedSequence.generate_state(k, uint64)`: pairs of uint32 words
viewed little-endian as uint64. -/
def generateState64 (pool : List ℕ) (k : ℕ) : List ℕ :=
  let w := generateStateWords pool (2 * k)
  (List.range k).map fun i => w.getD (2 * i) 0 + W32 * w.getD (2 * i + 1) 0

/-! ## numpy PCG64 (pcg64.c) -/

/-- The default 128-bit PCG multiplier. -/
def PCG_MULT : ℕ := 2549297995355413924 * 2 ^ 64 + 4865540595714422341

/-- PCG64 generator state: 128-bit LCG state and increment, plus the
buffered half-word used by `next_uint32`. -/
structure Pcg64 where
  state : ℕ
  inc : ℕ
  hasU32 : Bool
  u32 : ℕ
deriving Repr, DecidableEq

/-- One LCG step: `state := state * PCG_MULT + inc (mod 2^128)`. -/
def pcgStep (s : Pcg64) : Pcg64 :=
  { s with state := (s.state * PCG_MULT + s.inc) % W128 }

/-- Rotate a 64-bit value right by `r` bits. -/
def rotr64 (v r : ℕ) : ℕ :=
  ((v >>> r) ||| (v <<< ((64 - r) % 64))) % W64

/-- The XSL-RR output function of PCG64. -/
def pcgOutput (st : ℕ) : ℕ :=
  rotr64 (((st >>> 64) ^^^ st) % W64) (st >>> 122)

/-- Model of `pcg64_next64`: step, then apply the output function. -/
def pcgNext64 (s : Pcg64) : ℕ × Pcg64 :=
  let s2 := pcgStep s
  (pcgOutput s2.state, s2)

/-- Model of `pcg64_next32`: return the buffered high half if present, else draw
a 64-bit word, return its low half and buffer the high half. -/
def pcgNext32 (s : Pcg64) : ℕ × Pcg64 :=
  if s.hasU32 then (s.u32 % W32, { s with hasU32 := false })
  else
    let (n, s2) := pcgNext64 s
    (n % W32, { s2 with hasU32 := true, u32 := (n >>> 32) % W32 })

/-- Model of `pcg64_srandom_r` seeding from a 128-bit initial state and stream. -/
def pcgSeeded (initstate initseq : ℕ) : Pcg64 :=
  let s0 : Pcg64 := ⟨0, (initseq * 2 + 1) % W128, false, 0⟩
  let s1 := pcgStep s0
  let s2 := pcgStep { s1 with state := (s1.state + initstate) % W128 }
  s2

/-- Model of `np.random.default_rng(seed)` for an integer seed: SeedSequence
entropy mixing, then four uint64 state words seeding PCG64 (the first
pair is the 128-bit initial state high-word first, the second pair the
stream). -/
def defaultRngFromSeed (seed : ℕ) : Pcg64 :=
  let st := generateState64 (seedPool seed) 4
  pcgSeeded (st.getD 0 0 * 2 ^ 64 + st.getD 1 0) (st.getD 2 0 * 2 ^ 64 + st.getD 3 0)

/-! ## numpy bounded integers (Lemire rejection, distributions.c) -/

/-- Core of `bounded_lemire_uint32`, fuel-structured: draw a 32-bit
word, widen-multiply by the exclusive range, reject while the low half
is below the threshold.  When fuel runs out the last draw is accepted;
every exit returns `(u * rngExcl) >>> 32` for some `u < 2 ^ 32`. -/
def lemire32Go (rngExcl threshold : ℕ) : ℕ → Pcg64 → ℕ × Pcg64
  | 0, s =>
    let us := pcgNext32 s
    ((us.1 * rngExcl) >>> 32, us.2)
  | fuel + 1, s =>
    let us := pcgNext32 s
    let m := us.1 * rngExcl
    if m % W32 < threshold then lemire32Go rngExcl threshold fuel us.2
    else (m >>> 32, us.2)

/-- Model of `bounded_lemire_uint32` on an inclusive range width `rng`: returns
a value in `[0, rng]`. -/
def lemire32 (rng : ℕ) (s : Pcg64) : ℕ × Pcg64 :=
  lemire32Go (rng + 1) ((W32 - 1 - rng) % (rng + 1)) 4096 s

/-- Model of `Generator.integers(low, high, size)` with the default exclusive
endpoint: numpy dispatches a sub-32-bit range to the 32-bit Lemire
sampler over the buffered `next_uint32`. -/
def npIntegers (low high : ℕ) : ℕ → Pcg64 → List ℕ × Pcg64
  | 0, s => ([], s)
  | k + 1, s =>
    let (v, s2) := lemire32 (high - 1 - low) s
    let (rest, s3) := npIntegers low high k s2
    ((low + v) :: rest, s3)

/-! ## numpy uniform doubles -/

/-- Model of `next_double`: the high 53 bits of a 64-bit draw, scaled to
`[0, 1)`. -/
def nextDouble (s : Pcg64) : ℚ × Pcg64 :=
  let (w, s2) := pcgNext64 s
  (((w >>> 11 : ℕ) : ℚ) / 2 ^ 53, s2)

/-- Model of `Generator.uniform(lo, hi, n)`: `n` draws of
`lo + (hi - lo) * next_double`. -/
def uniformList (lo hi : ℚ) : ℕ → Pcg64 → List ℚ × Pcg64
  | 0, s => ([], s)
  | n + 1, s =>
    let (u, s2) := nextDouble s
    let (rest, s3) := uniformList lo hi n s2
    ((lo + (hi - lo) * u) :: rest, s3)

/-! ## Geometry: points, polygons, shapely containment -/

/-- An immutable 2D point with exact rational coordinates. -/
structure Pt where
  x : ℚ
  y : ℚ
deriving DecidableEq, Repr

/-- A polygon, as the list of vertices of its exterior ring. -/
def Polygon := List Pt

/-- The square `Polygon(((0,0),(0,4),(4,4),(4,0)))` shared by all runs. -/
def SQUARE : Polygon := [⟨0, 0⟩, ⟨0, 4⟩, ⟨4, 4⟩, ⟨4, 0⟩]

/-- Model of `polygon.bounds`: the axis-aligned bounding box
`(minx, miny, maxx, maxy)` of the vertices. -/
def bounds : Polygon → ℚ × ℚ × ℚ × ℚ
  | [] => (0, 0, 0, 0)
  | v :: vs =>
    vs.foldl
      (fun (b : ℚ × ℚ × ℚ × ℚ) p =>
        (min b.1 p.x, min b.2.1 p.y, max b.2.2.1 p.x, max b.2.2.2 p.y))
      (v.x, v.y, v.x, v.y)

/-- Cross product of `b - a` with `p - a`: positive when `p` is to the
left of the directed line `a → b`. -/
def cross (a b p : Pt) : ℚ :=
  (b.x - a.x) * (p.y - a.y) - (b.y - a.y) * (p.x - a.x)

/-- Whether `p` lies on the closed segment from `a` to `b`. -/
def onSeg (p a b : Pt) : Bool :=
  decide (cross a b p = 0) && decide (min a.x b.x ≤ p.x) &&
    decide (p.x ≤ max a.x b.x) && decide (min a.y b.y ≤ p.y) &&
    decide (p.y ≤ max a.y b.y)

/-- The directed edges of a polygon's exterior ring (consecutive
vertices, wrapping around). -/
def edgesOf (poly : Polygon) : List (Pt × Pt) :=
  poly.zip (poly.drop 1 ++ poly.take 1)

/-- Whether an edge crosses the horizontal ray cast rightwards from
`p`, with the standard half-open vertical rule and an exact sign test
for the intersection being strictly right of `p`. -/
def edgeCrossesRay (p : Pt) (e : Pt × Pt) : Bool :=
  if e.1.y ≤ p.y ∧ p.y < e.2.y then decide (0 < cross e.1 e.2 p)
  else if e.2.y ≤ p.y ∧ p.y < e.1.y then decide (cross e.1 e.2 p < 0)
  else false

/-- Whether `p` lies on the boundary of the polygon. -/
def onBoundary (poly : Polygon) (p : Pt) : Bool :=
  (edgesOf poly).any fun e => onSeg p e.1 e.2

/-- Number of ray crossings of the polygon boundary. -/
def crossNum (poly : Polygon) (p : Pt) : ℕ :=
  ((edgesOf poly).filter (edgeCrossesRay p)).length

/-- Shapely `contains(polygon, point)`: true exactly when the point is
in the interior of the polygon (odd crossing parity and not on the
boundary). -/
def shContains (poly : Polygon) (p : Pt) : Bool :=
  !onBoundary poly p && crossNum poly p % 2 == 1

/-- Membership in the closed region, as the specification words it:
the interior together with the boundary. -/
def inClosedRegion (poly : Polygon) (p : Pt) : Bool :=
  onBoundary poly p || crossNum poly p % 2 == 1

/-! ## Point Sampler: `generate_random_points` -/

/-- Model of `np.random.default_rng(seed)` with an optional seed: a given seed
fully determines the generator; with no seed the generator is seeded
from OS entropy, modelled here as an explicit entropy parameter. -/
def npDefaultRng (seed : Option ℕ) (entropy : ℕ) : Pcg64 :=
  match seed with
  | some s => defaultRngFromSeed s
  | none => defaultRngFromSeed entropy

/-- Model of `generate_random_points`: sample `n` points uniformly in the
bounding box of the polygon, x coordinates first, then y coordinates,
from a local generator built from the optional seed. -/
def generateRandomPoints (squarePolygon : Polygon) (nPoints : ℕ)
    (seed : Option ℕ) (entropy : ℕ) : List Pt :=
  let rng := npDefaultRng seed entropy
  let b := bounds squarePolygon
  let rx := uniformList b.1 b.2.2.1 nPoints rng
  let ry := uniformList b.2.1 b.2.2.2 nPoints rx.2
  (rx.1.zip ry.1).map fun q => ⟨q.1, q.2⟩

/-! ## Estimate strategies -/

/-- The Int8 cast of a containment flag (`true ↦ 1`, `false ↦ 0`). -/
def b01 (b : Bool) : ℕ := if b then 1 else 0

/-- The `inside` column: containment flags of the sampled points
against the inscribed circle polygon, cast to 0/1. -/
def insideFlags (circle : Polygon) (pts : List Pt) : List ℕ :=
  pts.map fun p => b01 (shContains circle p)

/-- Cumulative sum with an accumulator (`cum_sum`; polars upcasts the
Int8 column to Int64, so no wraparound occurs). -/
def cumsumAux (acc : ℕ) : List ℕ → List ℕ
  | [] => []
  | v :: rest => (acc + v) :: cumsumAux (acc + v) rest

/-- The `inside_cumsum` column. -/
def cumInsideCol (inside : List ℕ) : List ℕ := cumsumAux 0 inside

/-- The `observations` column: `arange(1, len + 1)`. -/
def obsCol (inside : List ℕ) : List ℕ := List.range' 1 inside.length

/-- The running pi estimate at one row: `4 * (inside_cumsum / index)`. -/
def estimateAt (c i : ℕ) : ℚ := 4 * ((c : ℚ) / (i : ℚ))

/-- The `pi_estimate` column: elementwise `4 * (inside_cumsum /
observations)`. -/
def estimateCol (inside : List ℕ) : List ℚ :=
  List.zipWith estimateAt (cumInsideCol inside) (obsCol inside)

/-- Loop body of `generate_estimates_for_loop`: walk the points once,
incrementing the observation count and the inside count, emitting the
running estimate at each step. -/
def loopAux (circle : Polygon) : List Pt → ℕ → ℕ → List (ℕ × ℚ)
  | [], _, _ => []
  | pt :: rest, obs, ins =>
    let obs2 := obs + 1
    let ins2 := if shContains circle pt then ins + 1 else ins
    (obs2, estimateAt ins2 obs2) :: loopAux circle rest obs2 ins2

/-- Model of `generate_estimates_for_loop`: the eager iterative strategy,
producing the (observations, pi_estimate) rows of the output frame. -/
def generateEstimatesForLoop (squarePolygon circlePolygon : Polygon)
    (nSamples : ℕ) (seed : Option ℕ) (entropy : ℕ) : List (ℕ × ℚ) :=
  loopAux circlePolygon (generateRandomPoints squarePolygon nSamples seed entropy) 0 0

/-- The columns of the polars frame built by
`generate_estimates_polars`. -/
structure PolarsFrame where
  geom : List Pt
  inside : List ℕ
  insideCumsum : List ℕ
  observations : List ℕ
  piEstimate : List ℚ
deriving DecidableEq, Repr

/-- The vectorized pipeline of `generate_estimates_polars`: sample the
points, broadcast the containment test and cast to Int8, take the
cumulative sum and the 1-based arange, and form the elementwise
estimate. -/
def polarsCompute (squarePolygon circlePolygon : Polygon) (nSamples : ℕ)
    (seed : Option ℕ) (entropy : ℕ) : PolarsFrame :=
  let geom := generateRandomPoints squarePolygon nSamples seed entropy
  let inside := insideFlags circlePolygon geom
  { geom := geom
    inside := inside
    insideCumsum := cumInsideCol inside
    observations := obsCol inside
    piEstimate := estimateCol inside }

/-- A polars LazyFrame: a still-unevaluated computation description. -/
structure LazyFrame where
  plan : Unit → PolarsFrame

/-- Model of `LazyFrame.collect`: force evaluation of the deferred plan. -/
def collectFrame (lf : LazyFrame) : PolarsFrame := lf.plan ()

/-- Model of `generate_estimates_polars`: build the lazy pipeline and either
return it uncollected (`return_lazy_frame=True`) or collect it. -/
def generateEstimatesPolars (squarePolygon circlePolygon : Polygon)
    (nSamples : ℕ) (seed : Option ℕ) (entropy : ℕ)
    (returnLazyFrame : Bool) : LazyFrame ⊕ PolarsFrame :=
  let df : LazyFrame :=
    ⟨fun _ => polarsCompute squarePolygon circlePolygon nSamples seed entropy⟩
  if returnLazyFrame then Sum.inl df else Sum.inr (collectFrame df)

/-- The (observations, pi_estimate) rows of a collected frame. -/
def frameRows (f : PolarsFrame) : List (ℕ × ℚ) :=
  f.observations.zip f.piEstimate

/-- The rows delivered by either return mode: a lazy frame is collected
first. -/
def resultRows : LazyFrame ⊕ PolarsFrame → List (ℕ × ℚ)
  | Sum.inl lf => frameRows (collectFrame lf)
  | Sum.inr f => frameRows f

/-! ## Multi-run aggregation and seeding -/

/-- Modelled from the spec: `create_seed_list` is imported by
`multi_example_polars.py` from `tools.generate` but its definition is
not in the sources; per the Seed Hierarchy Generator contract it
derives `size` child seeds in `[1, 100)` from a seeded generator, as
`random_seed_example` does. -/
def createSeedList (size seed : ℕ) : List ℕ :=
  (npIntegers 1 100 size (defaultRngFromSeed seed)).1

/-- Model of `random_seed_example` (printing aside): the principal seeds derived
from the main seed, and for each principal seed its yearly seeds. -/
def randomSeedExample (mainSeed numberOfSimulations yearsToSimulate : ℕ) :
    List ℕ × List (List ℕ) :=
  let principal := (npIntegers 1 100 numberOfSimulations (defaultRngFromSeed mainSeed)).1
  (principal,
    principal.map fun s => (npIntegers 1 100 yearsToSimulate (defaultRngFromSeed s)).1)

/-- Arithmetic mean of a list of rationals. -/
def meanQ (l : List ℚ) : ℚ := l.sum / l.length

/-- Insert a key into a strictly sorted list of keys, keeping it
sorted and duplicate-free. -/
def insertKey (k : ℕ) : List ℕ → List ℕ
  | [] => [k]
  | a :: t =>
    if k < a then k :: a :: t
    else if k = a then a :: t
    else a :: insertKey k t

/-- The distinct keys of a list, in ascending order. -/
def sortedKeys (l : List ℕ) : List ℕ := l.foldr insertKey []

/-- The aggregation core of `multiple_monte_carlo_example_polars`
(lines 99–111): concatenate the per-run rows, group by observation
index, average the estimates of each group, and sort ascending by
observation index. -/
def aggregateRuns (runs : List (List (ℕ × ℚ))) : List (ℕ × ℚ) :=
  let all := runs.flatten
  (sortedKeys (all.map Prod.fst)).map fun k =>
    (k, meanQ ((all.filter fun r => r.1 == k).map Prod.snd))

/-- Model of `multiple_monte_carlo_example_polars` (plotting aside): derive one
seed per simulation, run the lazy polars pipeline per seed, and
aggregate the collected rows. -/
def multipleMonteCarloExamplePolars (squarePolygon circlePolygon : Polygon)
    (nSamples nSimulations seed entropy : ℕ) : List (ℕ × ℚ) :=
  let seedList := createSeedList nSimulations seed
  aggregateRuns
    (seedList.map fun s =>
      resultRows
        (generateEstimatesPolars squarePolygon circlePolygon nSamples (some s) entropy true))

/-! ## Equivalence of the two strategies -/

theorem insideFlags_cons (circle : Polygon) (p : Pt) (pts : List Pt) :
    insideFlags circle (p :: pts) =
      b01 (shContains circle p) :: insideFlags circle pts := rfl

theorem insideFlags_length (circle : Polygon) (pts : List Pt) :
    (insideFlags circle pts).length = pts.length := List.length_map ..

theorem loopAux_eq_vectorized (circle : Polygon) :
    ∀ (pts : List Pt) (obs ins : ℕ),
      loopAux circle pts obs ins =
        List.zip (List.range' (obs + 1) pts.length)
          (List.zipWith estimateAt (cumsumAux ins (insideFlags circle pts))
            (List.range' (obs + 1) pts.length))
  | [], obs, ins => by simp [loopAux, insideFlags, cumsumAux]
  | pt :: rest, obs, ins => by
    rw [insideFlags_cons]
    simp only [loopAux, List.length_cons, List.range'_succ, cumsumAux,
      List.zipWith_cons_cons, List.zip_cons_cons]
    refine congrArg₂ (· :: ·) ?_ ?_
    · cases h : shContains circle pt <;> simp [h, b01]
    · rw [loopAux_eq_vectorized circle rest (obs + 1)
        (if shContains circle pt then ins + 1 else ins)]
      cases h : shContains circle pt <;> simp [h, b01]

/-- Claim C1: for every square polygon, inscribed-circle polygon,
sample count and seed, the eager iterative strategy
(`generate_estimates_for_loop`) and the collected deferred vectorized
strategy (`generate_estimates_polars`) produce identical Observation
Record sequences: the same observation indices and identical running
pi estimates at every index. -/
theorem spec_C1_strategy_equivalence (squarePolygon circlePolygon : Polygon)
    (nSamples : ℕ) (seed : Option ℕ) (entropy : ℕ) :
    generateEstimatesForLoop squarePolygon circlePolygon nSamples seed entropy =
      resultRows
        (generateEstimatesPolars squarePolygon circlePolygon nSamples seed entropy false) :=
  by
  rw [generateEstimatesForLoop,
    loopAux_eq_vectorized circlePolygon
      (generateRandomPoints squarePolygon nSamples seed entropy) 0 0]
  simp [generateEstimatesPolars, resultRows, collectFrame, polarsCompute,
    frameRows, estimateCol, cumInsideCol, obsCol, insideFlags_length]

/-! ## Sampler determinism and bounds -/

/-- Claim C6: two invocations of the Point Sampler with the same
integer seed, count, and bounding polygon produce identical point
sequences; the generator is local and fully determined by the seed, so
the ambient entropy source is irrelevant. -/
theorem spec_C6_sampler_determinism (squarePolygon : Polygon) (nPoints : ℕ)
    (s entropy1 entropy2 : ℕ) :
    generateRandomPoints squarePolygon nPoints (some s) entropy1 =
      generateRandomPoints squarePolygon nPoints (some s) entropy2 := rfl

theorem pcgNext64_lt (s : Pcg64) : (pcgNext64 s).1 < W64 := by
  have : 0 < W64 := by norm_num [W64]
  simpa [pcgNext64, pcgOutput, rotr64] using Nat.mod_lt _ this

theorem nextDouble_nonneg (s : Pcg64) : 0 ≤ (nextDouble s).1 := by
  simp only [nextDouble]
  positivity

theorem nextDouble_lt_one (s : Pcg64) : (nextDouble s).1 < 1 := by
  have hw : (pcgNext64 s).1 < W64 := pcgNext64_lt s
  simp only [nextDouble]
  rw [div_lt_one (by positivity)]
  have h53 : (pcgNext64 s).1 >>> 11 < 2 ^ 53 := by
    rw [Nat.shiftRight_eq_div_pow]
    have : (pcgNext64 s).1 < 2 ^ 53 * 2 ^ 11 := by
      calc (pcgNext64 s).1 < W64 := hw
      _ = 2 ^ 53 * 2 ^ 11 := by norm_num [W64]
    omega
  exact_mod_cast h53

theorem uniformList_length (lo hi : ℚ) :
    ∀ (n : ℕ) (s : Pcg64), ((uniformList lo hi n s).1).length = n
  | 0, _ => rfl
  | n + 1, s => by
    simp only [uniformList, List.length_cons]
    rw [uniformList_length lo hi n]

theorem uniformList_mem_range (lo hi : ℚ) (hlo : lo < hi) :
    ∀ (n : ℕ) (s : Pcg64) (x : ℚ), x ∈ (uniformList lo hi n s).1 →
      lo ≤ x ∧ x < hi
  | n + 1, s, x, hx => by
    simp only [uniformList, List.mem_cons] at hx
    rcases hx with hx | hx
    · subst hx
      have h0 := nextDouble_nonneg s
      have h1 := nextDouble_lt_one s
      constructor
      · nlinarith
      · nlinarith
    · exact uniformList_mem_range lo hi hlo n _ x hx

/-- Claim C7: the Point Sampler produces exactly `n` points, each with
x in `[minx, maxx)` and y in `[miny, maxy)`, for any polygon whose
bounding box is nondegenerate. -/
theorem spec_C7_sampler_contract (squarePolygon : Polygon) (nPoints : ℕ)
    (seed : Option ℕ) (entropy : ℕ)
    (hx : (bounds squarePolygon).1 < (bounds squarePolygon).2.2.1)
    (hy : (bounds squarePolygon).2.1 < (bounds squarePolygon).2.2.2) :
    (generateRandomPoints squarePolygon nPoints seed entropy).length = nPoints ∧
      ∀ p ∈ generateRandomPoints squarePolygon nPoints seed entropy,
        (bounds squarePolygon).1 ≤ p.x ∧ p.x < (bounds squarePolygon).2.2.1 ∧
          (bounds squarePolygon).2.1 ≤ p.y ∧ p.y < (bounds squarePolygon).2.2.2 := by
  constructor
  · simp [generateRandomPoints, List.length_zip, uniformList_length]
  · intro p hp
    simp only [generateRandomPoints, List.mem_map] at hp
    obtain ⟨⟨qx, qy⟩, hq, rfl⟩ := hp
    have hmem := List.of_mem_zip hq
    have hqx := uniformList_mem_range _ _ hx _ _ _ hmem.1
    have hqy := uniformList_mem_range _ _ hy _ _ _ hmem.2
    exact ⟨hqx.1, hqx.2, hqy.1, hqy.2⟩

/-- Claim C7 witness: at the concrete square and one sample the
hypotheses hold and the sampler yields exactly one point. -/
theorem spec_C7_sampler_contract_witness :
    (bounds SQUARE).1 < (bounds SQUARE).2.2.1 ∧
      (generateRandomPoints SQUARE 1 (some 5) 0).length = 1 :=
  ⟨by norm_num [bounds, SQUARE],
    (spec_C7_sampler_contract SQUARE 1 (some 5) 0 (by norm_num [bounds, SQUARE])
        (by norm_num [bounds, SQUARE])).1⟩

/-! ## Boundary cases -/

/-- Claim C8: with sample count zero, both strategies yield an empty
Run Result; no observation row (and hence no division) is produced. -/
theorem spec_C8_zero_samples (squarePolygon circlePolygon : Polygon)
    (seed : Option ℕ) (entropy : ℕ) :
    generateEstimatesForLoop squarePolygon circlePolygon 0 seed entropy = [] ∧
      resultRows
        (generateEstimatesPolars squarePolygon circlePolygon 0 seed entropy false) = [] := by
  constructor
  · rfl
  · rfl

/-- Claim C10: collecting the LazyFrame returned with
`return_lazy_frame=True` yields exactly the rows of the collected call
with `return_lazy_frame=False`; the flag only defers materialization. -/
theorem spec_C10_lazy_flag_equivalence (squarePolygon circlePolygon : Polygon)
    (nSamples : ℕ) (seed : Option ℕ) (entropy : ℕ) :
    resultRows
        (generateEstimatesPolars squarePolygon circlePolygon nSamples seed entropy true) =
      resultRows
        (generateEstimatesPolars squarePolygon circlePolygon nSamples seed entropy false) := rfl

/-! ## Accumulator invariants -/

theorem cumsumAux_length : ∀ (l : List ℕ) (acc : ℕ),
    (cumsumAux acc l).length = l.length
  | [], _ => rfl
  | _ :: rest, acc => by simp [cumsumAux, cumsumAux_length rest]

theorem cumsumAux_getD : ∀ (l : List ℕ) (acc i : ℕ), i < l.length →
    (cumsumAux acc l).getD i 0 = acc + (l.take (i + 1)).sum
  | v :: _, _, 0, _ => by simp [cumsumAux]
  | v :: rest, acc, i + 1, h => by
    simp only [cumsumAux, List.getD_cons_succ]
    rw [cumsumAux_getD rest (acc + v) i (by simpa using h)]
    simp only [List.take_succ_cons, List.sum_cons]
    omega

theorem sum_take_le : ∀ (l : List ℕ) (k : ℕ), (l.take k).sum ≤ l.sum
  | [], _ => by simp
  | _ :: _, 0 => by simp
  | v :: rest, k + 1 => by
    simpa using Nat.add_le_add_left (sum_take_le rest k) v

theorem sum_le_length_of_le_one : ∀ l : List ℕ, (∀ x ∈ l, x ≤ 1) →
    l.sum ≤ l.length
  | [], _ => by simp
  | v :: rest, h => by
    have hv : v ≤ 1 := h v (by simp)
    have := sum_le_length_of_le_one rest fun x hx => h x (by simp [hx])
    simp only [List.sum_cons, List.length_cons]
    omega

theorem insideFlags_le_one (circle : Polygon) (pts : List Pt) :
    ∀ x ∈ insideFlags circle pts, x ≤ 1 := by
  intro x hx
  simp only [insideFlags, List.mem_map] at hx
  obtain ⟨p, _, rfl⟩ := hx
  cases shContains circle p <;> simp [b01]

/-- Claim C2: over any run's containment flags, the cumulative
inside-count is non-decreasing in the observation index and bounded by
the index, and the running estimate lies in `[0, 4]` (index `i` here is
0-based, so the 1-based index is `i + 1`). -/
theorem spec_C2_accumulator_invariants (circle : Polygon) (pts : List Pt)
    (i j : ℕ) (hi : i < pts.length) (hij : j ≤ i) :
    (cumInsideCol (insideFlags circle pts)).getD j 0 ≤
        (cumInsideCol (insideFlags circle pts)).getD i 0 ∧
      (cumInsideCol (insideFlags circle pts)).getD i 0 ≤ i + 1 ∧
      0 ≤ (estimateCol (insideFlags circle pts)).getD i 0 ∧
      (estimateCol (insideFlags circle pts)).getD i 0 ≤ 4 := by
  have hlen : (insideFlags circle pts).length = pts.length :=
    insideFlags_length circle pts
  set fl := insideFlags circle pts with hfl
  have hi' : i < fl.length := by omega
  have hj' : j < fl.length := by omega
  have hone : ∀ x ∈ fl, x ≤ 1 := insideFlags_le_one circle pts
  have hcum_i : (cumInsideCol fl).getD i 0 = (fl.take (i + 1)).sum := by
    rw [cumInsideCol, cumsumAux_getD fl 0 i hi', Nat.zero_add]
  have hcum_j : (cumInsideCol fl).getD j 0 = (fl.take (j + 1)).sum := by
    rw [cumInsideCol, cumsumAux_getD fl 0 j hj', Nat.zero_add]
  have hbound : (fl.take (i + 1)).sum ≤ i + 1 := by
    calc (fl.take (i + 1)).sum ≤ (fl.take (i + 1)).length :=
          sum_le_length_of_le_one _ fun x hx => hone x (List.mem_of_mem_take hx)
      _ ≤ i + 1 := by simp [List.length_take]
  have hmono : (fl.take (j + 1)).sum ≤ (fl.take (i + 1)).sum := by
    have : fl.take (j + 1) = (fl.take (i + 1)).take (j + 1) := by
      rw [List.take_take]
      congr 1
      omega
    rw [this]
    exact sum_take_le _ _
  refine ⟨by rw [hcum_i, hcum_j]; exact hmono, by rw [hcum_i]; exact hbound, ?_, ?_⟩
  · have hest : i < (estimateCol fl).length := by
      simp [estimateCol, cumInsideCol, cumsumAux_length, obsCol]
      omega
    rw [List.getD_eq_getElem _ _ hest]
    simp only [estimateCol]
    rw [List.getElem_zipWith, estimateAt]
    positivity
  · have hest : i < (estimateCol fl).length := by
      simp [estimateCol, cumInsideCol, cumsumAux_length, obsCol]
      omega
    rw [List.getD_eq_getElem _ _ hest]
    simp only [estimateCol]
    rw [List.getElem_zipWith]
    have hoi : i < (obsCol fl).length := by
      simp [obsCol]
      omega
    have hci : i < (cumInsideCol fl).length := by
      simp [cumInsideCol, cumsumAux_length]
      omega
    have hobs : (obsCol fl)[i] = 1 + i := by
      simp [obsCol]
    have hcum_el : (cumInsideCol fl)[i] = (fl.take (i + 1)).sum := by
      rw [← List.getD_eq_getElem _ 0, hcum_i]
    rw [estimateAt, hobs, hcum_el]
    have hc : ((fl.take (i + 1)).sum : ℚ) ≤ ((1 + i : ℕ) : ℚ) := by
      exact_mod_cast by omega
    have hpos : (0 : ℚ) < ((1 + i : ℕ) : ℚ) := by positivity
    calc 4 * (((fl.take (i + 1)).sum : ℚ) / ((1 + i : ℕ) : ℚ))
        ≤ 4 * 1 := by
          have := (div_le_one hpos).mpr hc
          nlinarith
      _ = 4 := by norm_num

/-- Claim C2 witness: a concrete two-point run satisfies the
invariants at 0-based index 1. -/
theorem spec_C2_accumulator_invariants_witness :
    (1 : ℕ) < ([⟨2, 2⟩, ⟨5, 5⟩] : List Pt).length ∧
      (cumInsideCol (insideFlags SQUARE [⟨2, 2⟩, ⟨5, 5⟩])).getD 1 0 ≤ 2 :=
  ⟨by norm_num,
    (spec_C2_accumulator_invariants SQUARE [⟨2, 2⟩, ⟨5, 5⟩] 1 0 (by norm_num)
        (by norm_num)).2.1⟩

/-! ## Seed hierarchy -/

theorem pcgNext32_lt (s : Pcg64) : (pcgNext32 s).1 < W32 := by
  have h32 : 0 < W32 := by norm_num [W32]
  rw [pcgNext32]
  split
  · simpa using Nat.mod_lt _ h32
  · simpa using Nat.mod_lt _ h32

theorem mulShift_le (u r : ℕ) (hu : u < W32) (hr : 0 < r) :
    (u * r) >>> 32 ≤ r - 1 := by
  rw [Nat.shiftRight_eq_div_pow]
  have : u * r / 2 ^ 32 < r := by
    rw [Nat.div_lt_iff_lt_mul (by norm_num)]
    have : u * r < W32 * r := Nat.mul_lt_mul_of_lt_of_le hu (le_refl r) (by omega)
    calc u * r < W32 * r := this
      _ = r * 2 ^ 32 := by rw [W32]; ring
  omega

theorem lemire32Go_le (rngExcl thr : ℕ) (hr : 0 < rngExcl) :
    ∀ (fuel : ℕ) (s : Pcg64), (lemire32Go rngExcl thr fuel s).1 ≤ rngExcl - 1
  | 0, s => by
    simpa [lemire32Go] using mulShift_le (pcgNext32 s).1 rngExcl (pcgNext32_lt s) hr
  | fuel + 1, s => by
    have h0 := mulShift_le (pcgNext32 s).1 rngExcl (pcgNext32_lt s) hr
    have hrec := lemire32Go_le rngExcl thr hr fuel (pcgNext32 s).2
    rw [lemire32Go]
    split
    · exact hrec
    · simpa using h0

theorem lemire32_le (rng : ℕ) (s : Pcg64) : (lemire32 rng s).1 ≤ rng := by
  have := lemire32Go_le (rng + 1) ((W32 - 1 - rng) % (rng + 1)) (by omega) 4096 s
  simpa [lemire32] using this

theorem npIntegers_length (low high : ℕ) :
    ∀ (k : ℕ) (s : Pcg64), ((npIntegers low high k s).1).length = k
  | 0, _ => rfl
  | k + 1, s => by
    simp only [npIntegers, List.length_cons]
    rw [npIntegers_length low high k]

theorem npIntegers_mem_unit_range :
    ∀ (k : ℕ) (s : Pcg64), ∀ x ∈ (npIntegers 1 100 k s).1, 1 ≤ x ∧ x < 100
  | k + 1, s, x, hx => by
    simp only [npIntegers, List.mem_cons] at hx
    rcases hx with hx | hx
    · subst hx
      have := lemire32_le (100 - 1 - 1) (s)
      constructor
      · omega
      · omega
    · exact npIntegers_mem_unit_range k _ x hx

set_option maxRecDepth 1000000 in
/-- Claim C9: the Seed Hierarchy Generator is a pure function of the
top-level seed, always yielding `k` child seeds in `[1, 100)`; at the
concrete scenario, top-level seed 42 with 2 simulations and 5 values
each yields principal seeds `[9, 77]`, child seed 9 yields
`[42, 87, 96, 29, 12]` and child seed 77 yields `[6, 78, 63, 55, 79]`. -/
theorem spec_C9_seed_hierarchy :
    randomSeedExample 42 2 5 =
        ([9, 77], [[42, 87, 96, 29, 12], [6, 78, 63, 55, 79]]) ∧
      ∀ (seed k : ℕ), (createSeedList k seed).length = k ∧
        ∀ x ∈ createSeedList k seed, 1 ≤ x ∧ x < 100 := by
  refine ⟨by decide, fun seed k => ⟨npIntegers_length 1 100 k _, ?_⟩⟩
  intro x hx
  exact npIntegers_mem_unit_range k _ x hx

set_option maxRecDepth 1000000 in
/-- Claim C9 witness: the first derived child seed of top-level seed 42
is 9, which lies in `[1, 100)`. -/
theorem spec_C9_seed_hierarchy_witness : 1 ≤ 9 ∧ 9 < 100 :=
  (spec_C9_seed_hierarchy.2 42 2).2 9 (by decide)

/-! ## Containment test: boundary behaviour and square characterization -/

theorem edgesOf_SQUARE :
    edgesOf SQUARE =
      [(⟨0, 0⟩, ⟨0, 4⟩), (⟨0, 4⟩, ⟨4, 4⟩), (⟨4, 4⟩, ⟨4, 0⟩), (⟨4, 0⟩, ⟨0, 0⟩)] := rfl

theorem seg_left (px py : ℚ) :
    onSeg ⟨px, py⟩ ⟨0, 0⟩ ⟨0, 4⟩ = true ↔ px = 0 ∧ 0 ≤ py ∧ py ≤ 4 := by
  simp [onSeg, cross]
  constructor
  · rintro ⟨⟨⟨⟨h1, h2⟩, h3⟩, h4⟩, h5⟩
    exact ⟨h1, h4, h5⟩
  · rintro ⟨h1, h2, h3⟩
    exact ⟨⟨⟨⟨h1, by linarith⟩, by linarith⟩, h2⟩, h3⟩

theorem seg_top (px py : ℚ) :
    onSeg ⟨px, py⟩ ⟨0, 4⟩ ⟨4, 4⟩ = true ↔ py = 4 ∧ 0 ≤ px ∧ px ≤ 4 := by
  simp [onSeg, cross]
  constructor
  · rintro ⟨⟨⟨⟨h1, h2⟩, h3⟩, h4⟩, h5⟩
    exact ⟨by linarith, h2, h3⟩
  · rintro ⟨h1, h2, h3⟩
    exact ⟨⟨⟨⟨by linarith, h2⟩, h3⟩, by linarith⟩, by linarith⟩

theorem seg_right (px py : ℚ) :
    onSeg ⟨px, py⟩ ⟨4, 4⟩ ⟨4, 0⟩ = true ↔ px = 4 ∧ 0 ≤ py ∧ py ≤ 4 := by
  simp [onSeg, cross]
  constructor
  · rintro ⟨⟨⟨⟨h1, h2⟩, h3⟩, h4⟩, h5⟩
    exact ⟨by linarith, h4, h5⟩
  · rintro ⟨h1, h2, h3⟩
    exact ⟨⟨⟨⟨by linarith, by linarith⟩, by linarith⟩, h2⟩, h3⟩

theorem seg_bottom (px py : ℚ) :
    onSeg ⟨px, py⟩ ⟨4, 0⟩ ⟨0, 0⟩ = true ↔ py = 0 ∧ 0 ≤ px ∧ px ≤ 4 := by
  simp [onSeg, cross]
  constructor
  · rintro ⟨⟨⟨⟨h1, h2⟩, h3⟩, h4⟩, h5⟩
    exact ⟨h1, h2, h3⟩
  · rintro ⟨h1, h2, h3⟩
    exact ⟨⟨⟨⟨h1, h2⟩, h3⟩, by linarith⟩, by linarith⟩

theorem ray_left (px py : ℚ) :
    edgeCrossesRay ⟨px, py⟩ (⟨0, 0⟩, ⟨0, 4⟩) = true ↔
      (0 ≤ py ∧ py < 4) ∧ px < 0 := by
  rw [edgeCrossesRay]
  split_ifs with h1 h2
  · simp only [decide_eq_true_iff, cross]
    constructor
    · intro h
      exact ⟨by simpa using h1, by nlinarith⟩
    · rintro ⟨-, h⟩
      nlinarith
  · exact absurd h2 (by rintro ⟨a, b⟩; simp at a b; linarith)
  · simp only [Bool.false_eq_true, false_iff]
    rintro ⟨⟨a, b⟩, -⟩
    exact h1 (by simpa using And.intro a b)

theorem ray_top (px py : ℚ) :
    edgeCrossesRay ⟨px, py⟩ (⟨0, 4⟩, ⟨4, 4⟩) = false := by
  rw [edgeCrossesRay]
  split_ifs with h1
  · exact absurd h1 (by rintro ⟨a, b⟩; simp at a b; linarith)
  · rfl

theorem ray_right (px py : ℚ) :
    edgeCrossesRay ⟨px, py⟩ (⟨4, 4⟩, ⟨4, 0⟩) = true ↔
      (0 ≤ py ∧ py < 4) ∧ px < 4 := by
  rw [edgeCrossesRay]
  split_ifs with h1 h2
  · exact absurd h1 (by rintro ⟨a, b⟩; simp at a b; linarith)
  · simp only [decide_eq_true_iff, cross]
    constructor
    · intro h
      exact ⟨by simpa using h2, by nlinarith⟩
    · rintro ⟨-, h⟩
      nlinarith
  · simp only [Bool.false_eq_true, false_iff]
    rintro ⟨⟨a, b⟩, -⟩
    exact h2 (by simpa using And.intro a b)

theorem ray_bottom (px py : ℚ) :
    edgeCrossesRay ⟨px, py⟩ (⟨4, 0⟩, ⟨0, 0⟩) = false := by
  rw [edgeCrossesRay]
  split_ifs with h1
  · exact absurd h1 (by rintro ⟨a, b⟩; simp at a b; linarith)
  · rfl

theorem onBoundary_SQUARE (px py : ℚ) :
    onBoundary SQUARE ⟨px, py⟩ = true ↔
      (px = 0 ∧ 0 ≤ py ∧ py ≤ 4) ∨ (py = 4 ∧ 0 ≤ px ∧ px ≤ 4) ∨
        (px = 4 ∧ 0 ≤ py ∧ py ≤ 4) ∨ (py = 0 ∧ 0 ≤ px ∧ px ≤ 4) := by
  rw [onBoundary, edgesOf_SQUARE]
  simp only [List.any_cons, List.any_nil, Bool.or_eq_true, Bool.false_eq_true,
    or_false]
  rw [seg_left, seg_top, seg_right, seg_bottom]

theorem parity_SQUARE (px py : ℚ) :
    (crossNum SQUARE ⟨px, py⟩ % 2 == 1) = true ↔
      0 ≤ px ∧ px < 4 ∧ 0 ≤ py ∧ py < 4 := by
  have ht := ray_top px py
  have hb := ray_bottom px py
  rw [crossNum, edgesOf_SQUARE]
  by_cases h1 : edgeCrossesRay ⟨px, py⟩ (⟨0, 0⟩, ⟨0, 4⟩) = true <;>
    by_cases h3 : edgeCrossesRay ⟨px, py⟩ (⟨4, 4⟩, ⟨4, 0⟩) = true
  · simp only [List.filter_cons, List.filter_nil, h1, h3, ht, hb]
    have h1p := (ray_left px py).mp h1
    norm_num
    intro a b c
    linarith [h1p.2]
  · exact absurd
      ((ray_right px py).mpr ⟨((ray_left px py).mp h1).1,
        by linarith [((ray_left px py).mp h1).2]⟩) h3
  · rw [Bool.not_eq_true] at h1
    have h3p := (ray_right px py).mp h3
    have hx0 : 0 ≤ px := by
      by_contra hpx
      have he1 := (ray_left px py).mpr ⟨h3p.1, by linarith⟩
      rw [he1] at h1
      simp at h1
    simp only [List.filter_cons, List.filter_nil, h1, h3, ht, hb]
    norm_num
    exact ⟨hx0, h3p.2, h3p.1.1, h3p.1.2⟩
  · rw [Bool.not_eq_true] at h1 h3
    simp only [List.filter_cons, List.filter_nil, h1, h3, ht, hb]
    norm_num
    intro a b c
    by_contra hd
    have he3 := (ray_right px py).mpr ⟨⟨c, by linarith⟩, b⟩
    rw [he3] at h3
    simp at h3

theorem shContains_SQUARE (px py : ℚ) :
    shContains SQUARE ⟨px, py⟩ = true ↔ 0 < px ∧ px < 4 ∧ 0 < py ∧ py < 4 := by
  rw [shContains, Bool.and_eq_true]
  constructor
  · rintro ⟨hnb, hpar⟩
    have hp := (parity_SQUARE px py).mp hpar
    have hbf : onBoundary SQUARE ⟨px, py⟩ = false := by
      simpa using hnb
    have hx : px ≠ 0 := by
      intro h0
      have hbt := (onBoundary_SQUARE px py).mpr
        (Or.inl ⟨h0, hp.2.2.1, by linarith [hp.2.2.2]⟩)
      rw [hbt] at hbf
      simp at hbf
    have hy : py ≠ 0 := by
      intro h0
      have hbt := (onBoundary_SQUARE px py).mpr
        (Or.inr (Or.inr (Or.inr ⟨h0, hp.1, by linarith [hp.2.1]⟩)))
      rw [hbt] at hbf
      simp at hbf
    exact ⟨lt_of_le_of_ne hp.1 (Ne.symm hx), hp.2.1,
      lt_of_le_of_ne hp.2.2.1 (Ne.symm hy), hp.2.2.2⟩
  · rintro ⟨h1, h2, h3, h4⟩
    have hbf : onBoundary SQUARE ⟨px, py⟩ = false := by
      by_contra h
      rw [Bool.not_eq_false] at h
      rcases (onBoundary_SQUARE px py).mp h with ⟨e, -, -⟩ | ⟨e, -, -⟩ | ⟨e, -, -⟩ | ⟨e, -, -⟩ <;>
        linarith
    refine ⟨by simp [hbf], ?_⟩
    exact (parity_SQUARE px py).mpr ⟨le_of_lt h1, h2, le_of_lt h3, h4⟩

/-- Claim C3 counterexample: the point (0, 2) lies on the boundary of
the square region, hence in the closed region, yet the containment
test returns false. -/
theorem spec_C3_containment_counterexample :
    inClosedRegion SQUARE ⟨0, 2⟩ = true ∧ shContains SQUARE ⟨0, 2⟩ = false := by
  constructor
  · norm_num [inClosedRegion, onBoundary, edgesOf, SQUARE, onSeg, cross, crossNum,
      edgeCrossesRay, List.filter, List.any, List.zip, List.zipWith]
  · norm_num [shContains, onBoundary, edgesOf, SQUARE, onSeg, cross, crossNum,
      edgeCrossesRay, List.filter, List.any, List.zip, List.zipWith]

/-- Claim C3 amended: the containment test returns true exactly for
points in the open interior of the region under the even-odd rule —
a point on the boundary of any region always yields false; for the
square region the test holds exactly on `0 < x < 4 ∧ 0 < y < 4`. -/
theorem spec_C3_containment_amended :
    (∀ (poly : Polygon) (p : Pt), onBoundary poly p = true →
        shContains poly p = false) ∧
      ∀ p : Pt, shContains SQUARE p = true ↔
        0 < p.x ∧ p.x < 4 ∧ 0 < p.y ∧ p.y < 4 := by
  constructor
  · intro poly p h
    simp [shContains, h]
  · intro p
    exact shContains_SQUARE p.x p.y

/-- Claim C3 amended witness: the boundary point (4, 1) is rejected by
the containment test. -/
theorem spec_C3_containment_amended_witness :
    shContains SQUARE ⟨4, 1⟩ = false :=
  spec_C3_containment_amended.1 SQUARE ⟨4, 1⟩
    ((onBoundary_SQUARE 4 1).mpr
      (Or.inr (Or.inr (Or.inl ⟨rfl, by norm_num, by norm_num⟩))))

/-! ## Multi-run aggregation -/

theorem mem_insertKey (x k : ℕ) : ∀ (l : List ℕ), x ∈ insertKey k l ↔ x = k ∨ x ∈ l
  | [] => by simp [insertKey]
  | a :: t => by
    rw [insertKey]
    split_ifs with h1 h2
    · simp [List.mem_cons]
    · subst h2
      simp [List.mem_cons]
    · simp only [List.mem_cons, mem_insertKey x k t]
      tauto

theorem sorted_insertKey (k : ℕ) : ∀ (l : List ℕ), List.Sorted (· < ·) l →
    List.Sorted (· < ·) (insertKey k l)
  | [], _ => by simp [insertKey]
  | a :: t, h => by
    rw [List.sorted_cons] at h
    rw [insertKey]
    split_ifs with h1 h2
    · rw [List.sorted_cons]
      refine ⟨?_, List.sorted_cons.mpr h⟩
      intro b hb
      rcases List.mem_cons.mp hb with rfl | hb
      · exact h1
      · exact h1.trans (h.1 b hb)
    · exact List.sorted_cons.mpr h
    · rw [List.sorted_cons]
      refine ⟨?_, sorted_insertKey k t h.2⟩
      intro b hb
      rcases (mem_insertKey b k t).mp hb with rfl | hb
      · omega
      · exact h.1 b hb

theorem sorted_sortedKeys : ∀ l : List ℕ, List.Sorted (· < ·) (sortedKeys l)
  | [] => by simp [sortedKeys]
  | a :: t => sorted_insertKey a _ (sorted_sortedKeys t)

theorem mem_sortedKeys (x : ℕ) : ∀ l : List ℕ, x ∈ sortedKeys l ↔ x ∈ l
  | [] => by simp [sortedKeys]
  | a :: t => by
    rw [show sortedKeys (a :: t) = insertKey a (sortedKeys t) from rfl,
      mem_insertKey, mem_sortedKeys x t, List.mem_cons]

theorem sortedKeys_eq_of_mem_iff {l1 l2 : List ℕ} (h : ∀ x, x ∈ l1 ↔ x ∈ l2) :
    sortedKeys l1 = sortedKeys l2 := by
  haveI : IsAntisymm ℕ (· < ·) := IsAsymm.isAntisymm _
  refine List.eq_of_perm_of_sorted ?_ (sorted_sortedKeys l1) (sorted_sortedKeys l2)
  refine (List.perm_ext_iff_of_nodup (sorted_sortedKeys l1).nodup
    (sorted_sortedKeys l2).nodup).mpr ?_
  intro a
  rw [mem_sortedKeys, mem_sortedKeys]
  exact h a

theorem sortedKeys_of_sorted {l : List ℕ} (h : List.Sorted (· < ·) l) :
    sortedKeys l = l := by
  haveI : IsAntisymm ℕ (· < ·) := IsAsymm.isAntisymm _
  refine List.eq_of_perm_of_sorted ?_ (sorted_sortedKeys l) h
  exact (List.perm_ext_iff_of_nodup (sorted_sortedKeys l).nodup h.nodup).mpr
    fun a => mem_sortedKeys a l

theorem filter_flatten_comm {α : Type} (p : α → Bool) : ∀ (L : List (List α)),
    L.flatten.filter p = (L.map (List.filter p)).flatten
  | [] => rfl
  | l :: L => by
    simp [List.filter_append, filter_flatten_comm p L]

theorem flatten_replicate_singleton {α : Type} (a : α) :
    ∀ m, (List.replicate m [a]).flatten = List.replicate m a
  | 0 => rfl
  | m + 1 => by
    simp [List.replicate_succ, flatten_replicate_singleton a m]

theorem mem_flatten_replicate {α : Type} (x : α) (l : List α) :
    ∀ m, 1 ≤ m → (x ∈ (List.replicate m l).flatten ↔ x ∈ l)
  | 1, _ => by simp
  | m + 2, _ => by
    rw [List.replicate_succ, List.flatten_cons, List.mem_append,
      mem_flatten_replicate x l (m + 1) (by omega)]
    tauto

theorem filter_key_nodup : ∀ (r : List (ℕ × ℚ)), (r.map Prod.fst).Nodup →
    ∀ kv ∈ r, r.filter (fun e => e.1 == kv.1) = [kv]
  | [], _, kv, h => by simp at h
  | a :: t, hn, kv, h => by
    rw [List.map_cons, List.nodup_cons] at hn
    rcases List.mem_cons.mp h with rfl | hkv
    · rw [List.filter_cons]
      simp only [beq_self_eq_true, if_true]
      have hnil : t.filter (fun e => e.1 == kv.1) = [] := by
        rw [List.filter_eq_nil_iff]
        intro e he hc
        have hek : e.1 = kv.1 := by simpa using hc
        exact hn.1 (hek ▸ List.mem_map.mpr ⟨e, he, rfl⟩)
      rw [hnil]
    · have hne : (a.1 == kv.1) = false := by
        have hd : a.1 ≠ kv.1 := by
          intro hc
          exact hn.1 (hc ▸ List.mem_map.mpr ⟨kv, hkv, rfl⟩)
        simpa using hd
      rw [List.filter_cons, hne]
      simp only [Bool.false_eq_true, if_false]
      exact filter_key_nodup t hn.2 kv hkv

theorem meanQ_replicate (m : ℕ) (hm : m ≠ 0) (v : ℚ) :
    meanQ (List.replicate m v) = v := by
  rw [meanQ, List.sum_replicate, List.length_replicate, nsmul_eq_mul]
  field_simp

/-- Claim C4 counterexample: two runs of unequal length (1 and 2) are
aggregated without any error into a result that averages index 1 over
both runs and takes index 2 from the longer run alone. -/
theorem spec_C4_aggregator_counterexample :
    aggregateRuns [[(1, 3)], [(1, 3), (2, 4)]] = [(1, 3), (2, 4)] := by
  norm_num [aggregateRuns, sortedKeys, insertKey, meanQ, List.filter_cons,
    List.filter_nil]

/-- Claim C4 amended: the aggregation core performs no length
validation and never fails: for any collection of runs it produces
exactly one output row per distinct observation index — the sorted
union of the runs' indices — averaging whatever estimates are present
at each index, so unequal-length runs are silently combined rather
than rejected. -/
theorem spec_C4_aggregator_amended (runs : List (List (ℕ × ℚ))) :
    (aggregateRuns runs).map Prod.fst =
      sortedKeys ((runs.flatten).map Prod.fst) := by
  simp [aggregateRuns]
  exact List.map_id _

/-- Claim C5: aggregating m identical runs (distinct, ascending
observation indices) returns exactly the shared run; with m = 1 the
aggregation is the identity. -/
theorem spec_C5_identical_runs (m : ℕ) (hm : 1 ≤ m) (r : List (ℕ × ℚ))
    (hr : List.Sorted (· < ·) (r.map Prod.fst)) :
    aggregateRuns (List.replicate m r) = r := by
  have hnodup : (r.map Prod.fst).Nodup := hr.nodup
  rw [aggregateRuns]
  have hmem : ∀ x, x ∈ ((List.replicate m r).flatten).map Prod.fst ↔
      x ∈ r.map Prod.fst := by
    intro x
    rw [List.mem_map, List.mem_map]
    constructor
    · rintro ⟨e, he, rfl⟩
      exact ⟨e, (mem_flatten_replicate e r m hm).mp he, rfl⟩
    · rintro ⟨e, he, rfl⟩
      exact ⟨e, (mem_flatten_replicate e r m hm).mpr he, rfl⟩
  have hkeys : sortedKeys (((List.replicate m r).flatten).map Prod.fst) =
      r.map Prod.fst :=
    (sortedKeys_eq_of_mem_iff hmem).trans (sortedKeys_of_sorted hr)
  rw [hkeys]
  refine List.ext_getElem (by simp) ?_
  intro i h1 h2
  have h3 : i < r.length := by simpa using h2
  rw [List.getElem_map, List.getElem_map]
  have hfil : ((List.replicate m r).flatten).filter
      (fun e => e.1 == r[i].1) = List.replicate m r[i] := by
    rw [filter_flatten_comm, List.map_replicate,
      filter_key_nodup r hnodup r[i] (List.getElem_mem h3),
      flatten_replicate_singleton]
  rw [hfil, List.map_replicate, meanQ_replicate m (by omega) (r[i]).2]

/-- Claim C5 witness: two identical two-row runs aggregate to the
shared run. -/
theorem spec_C5_identical_runs_witness :
    aggregateRuns (List.replicate 2 [(1, 3), (2, 4)]) = [(1, 3), (2, 4)] :=
  spec_C5_identical_runs 2 (by norm_num) [(1, 3), (2, 4)] (by decide)


end MonteCarlo
